import Mathlib

/-!
Verification of the streaming code-output parser, the content reconciler,
the fix pipeline orchestrator and related helpers of the vibe-django
repository, as a shallow embedding in Lean.

Sources embedded from the repository:
- PhaseImplementationOperation.execute (the onFileClose orchestration,
  the realtime-fixer eligibility check and the collected outputs).
- PROMPT_UTILS.verifyPrompt.
- buildDefaultUserData (the sanitized droplet name computation).

The SCOF streaming parser (parseStreamingChunks) and the FileProcessing
reconciler are called from the repository but their implementations are
not part of the provided sources; they are modelled from the spec, as
marked in the doc comments below.
-/

/-- The two content formats a generated file can declare. -/
inductive FileFormat where
  | fullContent
  | unifiedDiff
deriving DecidableEq, Repr

/-- A file whose open marker has been seen but whose close marker has not:
path, declared format, accumulated raw text so far. -/
structure PendingFile where
  path : String
  format : FileFormat
  rawContent : String
deriving DecidableEq, Repr

/-- An entry of the completed-files map: path, format and raw accumulated
content at close time. -/
structure CompletedEntry where
  path : String
  format : FileFormat
  rawContent : String
deriving DecidableEq, Repr

/-- One callback invocation emitted by the streaming parser. -/
inductive ParseEvent where
  | fileOpen (path : String)
  | contentChunk (path : String) (text : String) (format : FileFormat)
  | fileClose (path : String)
deriving DecidableEq, Repr

/-- Modelled from the spec: the ParsingState threaded through every chunk
call.  Holds the buffer of characters of the current incomplete line, the
pending file (if any), the completed-files map (an insertion-ordered
association list, as a TS Map), the extracted install commands and the
command-block mode flag. -/
structure ParsingState where
  buffer : List Char
  pending : Option PendingFile
  completedFiles : List CompletedEntry
  extractedInstallCommands : List String
  inCommandBlock : Bool
  warnings : List String
deriving DecidableEq, Repr

def initParsing : ParsingState :=
  { buffer := []
    pending := none
    completedFiles := []
    extractedInstallCommands := []
    inCommandBlock := false
    warnings := [] }

/-- Split a character list at every occurrence of the separator, keeping
empty segments, as the JS split does. -/
def splitOnChar (sep : Char) : List Char → List (List Char)
  | [] => [[]]
  | c :: rest =>
    let r := splitOnChar sep rest
    if c = sep then [] :: r
    else
      match r with
      | [] => [[c]]
      | h :: t => (c :: h) :: t

/-- The line count of a string as computed by the source via
fileContents.split of the newline character: one more than the number of
newline characters. -/
def lineCount (s : String) : Nat := s.data.count '\n' + 1

/-- Insert or overwrite an entry of the completed-files map, keeping the
insertion order of a TS Map. -/
def setEntry : List CompletedEntry → String → FileFormat → String → List CompletedEntry
  | [], p, f, r => [{ path := p, format := f, rawContent := r }]
  | e :: rest, p, f, r =>
    if e.path = p then { path := p, format := f, rawContent := r } :: rest
    else e :: setEntry rest p f r

/-- Look an entry up in the completed-files map. -/
def lookupEntry : List CompletedEntry → String → Option (FileFormat × String)
  | [], _ => none
  | e :: rest, p =>
    if e.path = p then some (e.format, e.rawContent)
    else lookupEntry rest p

/-- Classification of one complete line of the stream. -/
inductive LineClass where
  | openMarker (path : String) (format : FileFormat)
  | closeMarker
  | cmdOpen
  | cmdClose
  | plain
deriving DecidableEq, Repr

/-- Modelled from the spec: the line-oriented marker grammar.  A file-open
marker carries a path and a format tag, a file-close marker has no
payload, and a pair of sentinel lines brackets a command block.  Any
other line is plain text. -/
def classifyLine (line : String) : LineClass :=
  match splitOnChar ' ' line.data with
  | [w] =>
    if w = "FILE_CLOSE".data then LineClass.closeMarker
    else if w = "COMMANDS_BEGIN".data then LineClass.cmdOpen
    else if w = "COMMANDS_END".data then LineClass.cmdClose
    else LineClass.plain
  | [w, p, f] =>
    if w = "FILE_OPEN".data then
      if f = "full_content".data then LineClass.openMarker (String.mk p) FileFormat.fullContent
      else if f = "unified_diff".data then LineClass.openMarker (String.mk p) FileFormat.unifiedDiff
      else LineClass.plain
    else LineClass.plain
  | _ => LineClass.plain

/-- A command-block line that is collected: non-empty and not a comment. -/
def isCommandLine (line : String) : Bool :=
  match line.data.dropWhile (fun c => c = ' ') with
  | [] => false
  | c :: _ => if c = '#' then false else true

def dupOpenWarning (p : String) : String :=
  String.append "duplicate open discards pending file: " p

/-- Modelled from the spec: process one complete line of the stream,
returning the new parsing state and the callback invocations this line
emits.  Inside a command block every non-marker, non-empty, non-comment
line is appended to the extracted install commands.  Outside, an open
marker registers a new pending file (a duplicate open discards the prior
pending accumulation with a warning), a close marker moves the pending
file into the completed map and emits the close event, and a plain line
inside a file body is accumulated and forwarded. -/
def processLine (st : ParsingState) (line : String) : ParsingState × List ParseEvent :=
  if st.inCommandBlock then
    match classifyLine line with
    | LineClass.cmdClose => ({ st with inCommandBlock := false }, [])
    | _ =>
      if isCommandLine line then
        ({ st with extractedInstallCommands := st.extractedInstallCommands ++ [line] }, [])
      else (st, [])
  else
    match classifyLine line with
    | LineClass.openMarker p fmt =>
      let warns :=
        match st.pending with
        | some pf => [dupOpenWarning pf.path]
        | none => []
      ({ st with pending := some { path := p, format := fmt, rawContent := "" }
                 warnings := st.warnings ++ warns },
       [ParseEvent.fileOpen p])
    | LineClass.closeMarker =>
      match st.pending with
      | some pf =>
        ({ st with pending := none
                   completedFiles := setEntry st.completedFiles pf.path pf.format pf.rawContent },
         [ParseEvent.fileClose pf.path])
      | none => (st, [])
    | LineClass.cmdOpen => ({ st with inCommandBlock := true }, [])
    | LineClass.cmdClose => (st, [])
    | LineClass.plain =>
      match st.pending with
      | some pf =>
        ({ st with pending := some { path := pf.path, format := pf.format,
                                     rawContent := pf.rawContent ++ line ++ "\n" } },
         [ParseEvent.contentChunk pf.path (line ++ "\n") pf.format])
      | none => (st, [])

/-- Remove one trailing newline character, the trailing-newline
normalization applied uniformly after reconciliation. -/
def stripTrailingNewline (s : String) : String :=
  match s.data.reverse with
  | c :: rest => if c = '\n' then String.mk rest.reverse else s
  | [] => s

/-- The error raised when the context lines of a unified-diff hunk cannot
be located verbatim in the prior content. -/
structure PatchApplicationError where
  message : String
deriving DecidableEq, Repr

def patchErrorMsg : String :=
  "PatchApplicationError: minus block not found in prior content"

/-- One unified-diff hunk: the contiguous block of removed lines and the
block of added lines, both without their one-character prefixes. -/
structure Hunk where
  minus : List (List Char)
  plus : List (List Char)
deriving DecidableEq, Repr

/-- A hunk header line begins with two at signs. -/
def isHunkHeader (l : List Char) : Bool :=
  match l with
  | '@' :: '@' :: _ => true
  | _ => false

def finishHunk : Option Hunk → List Hunk
  | some h => [h]
  | none => []

/-- Modelled from the spec: collect the hunks of an accumulated diff body.
A hunk header starts a new hunk, removed and added lines extend the
current one, unprefixed context lines are ignored, and lines before the
first header are ignored. -/
def parseHunksAux : List (List Char) → Option Hunk → List Hunk
  | [], cur => finishHunk cur
  | l :: rest, cur =>
    if isHunkHeader l = true then
      finishHunk cur ++ parseHunksAux rest (some { minus := [], plus := [] })
    else
      match cur with
      | none => parseHunksAux rest none
      | some h =>
        match l with
        | '-' :: tl => parseHunksAux rest (some { minus := h.minus ++ [tl], plus := h.plus })
        | '+' :: tl => parseHunksAux rest (some { minus := h.minus, plus := h.plus ++ [tl] })
        | _ => parseHunksAux rest (some h)

def parseHunks (ls : List (List Char)) : List Hunk := parseHunksAux ls none

/-- Whether the block of lines is an initial segment of the line list. -/
def blockIsPrefixOf : List (List Char) → List (List Char) → Bool
  | [], _ => true
  | _ :: _, [] => false
  | b :: bs, l :: ls => if b = l then blockIsPrefixOf bs ls else false

/-- The first index, scanning top to bottom, at which the block occurs
verbatim in the line list. -/
def findBlockIdx (block : List (List Char)) : List (List Char) → Option Nat
  | [] => if blockIsPrefixOf block [] = true then some 0 else none
  | l :: rest =>
    if blockIsPrefixOf block (l :: rest) = true then some 0
    else (findBlockIdx block rest).map (fun i => i + 1)

/-- Modelled from the spec: apply one hunk by locating the contiguous
block of removed lines (first match wins) and substituting the added
lines in place. -/
def applyHunk (ls : List (List Char)) (h : Hunk) : Option (List (List Char)) :=
  match findBlockIdx h.minus ls with
  | some i => some (ls.take i ++ h.plus ++ ls.drop (i + h.minus.length))
  | none => none

def applyHunks : List Hunk → List (List Char) → Option (List (List Char))
  | [], ls => some ls
  | h :: rest, ls =>
    match applyHunk ls h with
    | some ls2 => applyHunks rest ls2
    | none => none

/-- Join lines back with newline separators. -/
def joinLines : List (List Char) → List Char
  | [] => []
  | [l] => l
  | l :: rest => l ++ '\n' :: joinLines rest

/-- Modelled from the spec: apply the accumulated hunks of a unified diff
to the prior content, failing with a PatchApplicationError when a minus
block cannot be located verbatim. -/
def applyUnifiedDiff (raw prior : String) : Except PatchApplicationError String :=
  let hunks := parseHunks (splitOnChar '\n' raw.data)
  match applyHunks hunks (splitOnChar '\n' prior.data) with
  | some ls => Except.ok (String.mk (joinLines ls))
  | none => Except.error { message := patchErrorMsg }

/-- Modelled from the spec: FileProcessing.processGeneratedFileContents.
Full-content files keep the raw accumulated body verbatim, unified-diff
files apply the hunks to the prior content; a single trailing newline is
trimmed uniformly, and on patch failure the prior content is kept
unchanged and the error is surfaced alongside. -/
def processGeneratedFileContents (fmt : FileFormat) (raw original : String) :
    String × Option PatchApplicationError :=
  match fmt with
  | FileFormat.fullContent => (stripTrailingNewline raw, none)
  | FileFormat.unifiedDiff =>
    match applyUnifiedDiff raw original with
    | Except.ok s => (stripTrailingNewline s, none)
    | Except.error e => (original, some e)

/-- The shape of FileOutputType: path, final contents and purpose. -/
structure FileOutput where
  filePath : String
  fileContents : String
  filePurpose : String
deriving DecidableEq, Repr

/-- One entry of the collected result-promise list: either an in-flight
asynchronous correction task for the file, or an already-resolved result
wrapping the generated file unchanged. -/
inductive FixResult where
  | pendingFix (file : FileOutput)
  | resolvedNow (file : FileOutput)
deriving DecidableEq, Repr

def fixResultFile : FixResult → FileOutput
  | FixResult.pendingFix f => f
  | FixResult.resolvedNow f => f

/-- The configuration the execute call closes over: the auto-fix input
flag, the realtime-code-fixer feature flag, the prior contents of all
files, and the purpose resolver collaborator. -/
structure Config where
  shouldAutoFix : Bool
  realtimeCodeFixerEnabled : Bool
  allFiles : List (String × String)
  purposeOf : String → String

/-- The combined flag computed once before streaming:
inputs.shouldAutoFix and the realtime-code-fixer feature flag. -/
def shouldEnableRealtimeCodeFixer (cfg : Config) : Bool :=
  cfg.shouldAutoFix && cfg.realtimeCodeFixerEnabled

def lookupFileContents : List (String × String) → String → Option String
  | [], _ => none
  | (p, c) :: rest, q =>
    if p = q then some c else lookupFileContents rest q

/-- The mutable outputs the execute call accumulates: the ordered list of
result promises, the fileClosedCallback invocations and the error log. -/
structure OrchestratorState where
  fixedFilePromises : List FixResult
  closedCallbacks : List FileOutput
  errorLogs : List String
deriving DecidableEq, Repr

def initOrchestrator : OrchestratorState :=
  { fixedFilePromises := [], closedCallbacks := [], errorLogs := [] }

def completedFileNotFoundMsg (p : String) : String :=
  String.append "Completed file not found: " p

/-- The onFileClose callback body of PhaseImplementationOperation.execute:
look the closed path up in the completed-files map (logging an error and
returning when it is absent), reconcile the contents against the prior
version, attach the purpose, then append either an asynchronous
correction promise (when the realtime fixer is enabled and the content
exceeds 50 lines) or an already-resolved result, and finally invoke the
fileClosedCallback. -/
def handleFileClose (cfg : Config) (completed : List CompletedEntry)
    (o : OrchestratorState) (filePath : String) : OrchestratorState :=
  match lookupEntry completed filePath with
  | none =>
    { o with errorLogs := o.errorLogs ++ [completedFileNotFoundMsg filePath] }
  | some (fmt, raw) =>
    let originalContents := (lookupFileContents cfg.allFiles filePath).getD ""
    let fileContents := (processGeneratedFileContents fmt raw originalContents).fst
    let generatedFile : FileOutput :=
      { filePath := filePath
        fileContents := fileContents
        filePurpose := cfg.purposeOf filePath }
    let fixed :=
      if shouldEnableRealtimeCodeFixer cfg = true ∧ 50 < lineCount fileContents then
        FixResult.pendingFix generatedFile
      else
        FixResult.resolvedNow generatedFile
    { o with fixedFilePromises := o.fixedFilePromises ++ [fixed]
             closedCallbacks := o.closedCallbacks ++ [generatedFile] }

/-- Dispatch of one parser callback to the orchestrator: only the close
event touches the collected outputs. -/
def handleEvent (cfg : Config) (completed : List CompletedEntry)
    (o : OrchestratorState) (e : ParseEvent) : OrchestratorState :=
  match e with
  | ParseEvent.fileClose p => handleFileClose cfg completed o p
  | _ => o

/-- The whole pipeline state: the parsing state, the log of callback
invocations in order, and the orchestrator outputs. -/
structure PipelineState where
  parser : ParsingState
  events : List ParseEvent
  orch : OrchestratorState
deriving DecidableEq, Repr

def initPipeline : PipelineState :=
  { parser := initParsing, events := [], orch := initOrchestrator }

/-- Process one complete line: run the parser on it and feed the emitted
callbacks to the orchestrator, which reads the completed-files map as it
stands after the line (as the source callback does). -/
def stepLine (cfg : Config) (ps : PipelineState) (line : String) : PipelineState :=
  let pr := processLine ps.parser line
  { parser := pr.fst
    events := ps.events ++ pr.snd
    orch := pr.snd.foldl (handleEvent cfg pr.fst.completedFiles) ps.orch }

/-- Feed one character: a newline completes the buffered line, any other
character is appended to the buffer of the current incomplete line. -/
def feedChar (cfg : Config) (ps : PipelineState) (c : Char) : PipelineState :=
  if c = '\n' then
    stepLine cfg { ps with parser := { ps.parser with buffer := [] } }
      (String.mk ps.parser.buffer)
  else
    { ps with parser := { ps.parser with buffer := ps.parser.buffer ++ [c] } }

/-- Modelled from the spec: parseStreamingChunks consumes one chunk,
buffering markers split across chunk boundaries. -/
def parseStreamingChunks (cfg : Config) (ps : PipelineState) (chunk : String) : PipelineState :=
  chunk.data.foldl (feedChar cfg) ps

/-- Run the whole phase implementation stream over the ordered chunk
sequence, starting from a fresh state. -/
def runPipeline (cfg : Config) (chunks : List String) : PipelineState :=
  chunks.foldl (parseStreamingChunks cfg) initPipeline

/-- The outputs of PhaseImplementationOperation.execute. -/
structure PhaseImplementationOutputs where
  fixedFilePromises : List FixResult
  deploymentNeeded : Bool
  commands : List String
deriving DecidableEq, Repr

/-- PhaseImplementationOperation.execute: run the stream and return the
collected promises, the deployment flag and the extracted install
commands of the final parsing state. -/
def executePhase (cfg : Config) (chunks : List String) : PhaseImplementationOutputs :=
  let ps := runPipeline cfg chunks
  { fixedFilePromises := ps.orch.fixedFilePromises
    deploymentNeeded := decide (0 < ps.orch.fixedFilePromises.length)
    commands := ps.parser.extractedInstallCommands }

/-- PROMPT_UTILS.verifyPrompt: the guard that would reject prompts with
unreplaced placeholders is commented out in the source; the function
returns its argument in the exception monad to make throw-freedom
expressible. -/
def verifyPrompt (prompt : String) : Except String String :=
  Except.ok prompt

/-- The paths of the close events, in emission order. -/
def closePaths (evts : List ParseEvent) : List String :=
  evts.filterMap fun e =>
    match e with
    | ParseEvent.fileClose p => some p
    | _ => none

theorem data_foldl_append (l : List String) (s : String) :
    (l.foldl (fun a b => a ++ b) s).data = s.data ++ (l.map String.data).flatten := by
  induction l generalizing s with
  | nil => simp
  | cons x xs ih => simp [List.foldl_cons, ih, String.data_append, List.append_assoc]

theorem data_join (l : List String) : (String.join l).data = (l.map String.data).flatten := by
  have h := data_foldl_append l ""
  simpa [String.join] using h

theorem runPipeline_eq_flat (cfg : Config) (chunks : List String) :
    runPipeline cfg chunks
      = ((chunks.map String.data).flatten).foldl (feedChar cfg) initPipeline := by
  suffices h : ∀ (cs : List String) (ps : PipelineState),
      cs.foldl (parseStreamingChunks cfg) ps
        = ((cs.map String.data).flatten).foldl (feedChar cfg) ps by
    exact h chunks initPipeline
  intro cs
  induction cs with
  | nil => intro ps; rfl
  | cons x xs ih =>
    intro ps
    simp only [List.foldl_cons, List.map_cons, List.flatten_cons, List.foldl_append]
    rw [ih]
    rfl

/-- C5: for every total input text, any two ways of splitting it into an
ordered chunk sequence (including splits inside a marker line) yield an
identical sequence of file-open, content-chunk and file-close callback
invocations and an identical final completed-files map. -/
theorem chunk_boundary_invariance (cfg : Config) (chunks1 chunks2 : List String)
    (h : String.join chunks1 = String.join chunks2) :
    (runPipeline cfg chunks1).events = (runPipeline cfg chunks2).events
    ∧ (runPipeline cfg chunks1).parser.completedFiles
        = (runPipeline cfg chunks2).parser.completedFiles := by
  have hflat : (chunks1.map String.data).flatten = (chunks2.map String.data).flatten := by
    rw [← data_join, ← data_join, h]
  rw [runPipeline_eq_flat, runPipeline_eq_flat, hflat]
  exact ⟨rfl, rfl⟩

def cfgEx : Config :=
  { shouldAutoFix := true
    realtimeCodeFixerEnabled := true
    allFiles := []
    purposeOf := fun _ => "example purpose" }

def chunksA : List String :=
  ["FILE_OPEN a.py full_content\nprint\nFILE_CLOSE\n"]

def chunksB : List String :=
  ["FILE_OPEN a.", "py full_co", "ntent\npr", "int\nFILE_CLOSE\n"]

theorem chunk_boundary_invariance_witness :
    (runPipeline cfgEx chunksA).events = (runPipeline cfgEx chunksB).events
    ∧ (runPipeline cfgEx chunksA).parser.completedFiles
        = (runPipeline cfgEx chunksB).parser.completedFiles :=
  chunk_boundary_invariance cfgEx chunksA chunksB (by decide)

/-- C4: the commands field of the phase implementation output is exactly
the extractedInstallCommands sequence of the final parsing state, with no
deduplication, filtering or other modification. -/
theorem commands_equal_extracted_install_commands (cfg : Config) (chunks : List String) :
    (executePhase cfg chunks).commands
      = (runPipeline cfg chunks).parser.extractedInstallCommands := rfl

theorem stripTrailingNewline_append_newline (B : String) :
    stripTrailingNewline (B ++ "\n") = B := by
  have h1 : (B ++ "\n").data = B.data ++ ['\n'] := by
    rw [String.data_append]
  have h2 : (B ++ "\n").data.reverse = '\n' :: B.data.reverse := by
    rw [h1]
    simp
  unfold stripTrailingNewline
  rw [h2]
  simp

/-- C6: a file with format full_content whose accumulated body is B is
reconciled to B verbatim after trailing-newline normalization, with no
error; in particular a body accumulated with one trailing newline is
reconciled to exactly B. -/
theorem full_content_round_trip (B original : String) :
    (processGeneratedFileContents FileFormat.fullContent B original).fst
        = stripTrailingNewline B
    ∧ (processGeneratedFileContents FileFormat.fullContent B original).snd = none
    ∧ (processGeneratedFileContents FileFormat.fullContent (B ++ "\n") original).fst = B := by
  refine ⟨rfl, rfl, ?_⟩
  show stripTrailingNewline (B ++ "\n") = B
  exact stripTrailingNewline_append_newline B

/-- C9: PROMPT_UTILS.verifyPrompt returns its argument unchanged and
never throws, for every input string, including prompts that still
contain unreplaced placeholders. -/
theorem verifyPrompt_returns_argument_unchanged (prompt : String) :
    verifyPrompt prompt = Except.ok prompt := rfl

theorem handleFileClose_found (cfg : Config) (completed : List CompletedEntry)
    (o : OrchestratorState) (p : String) (fmt : FileFormat) (raw : String)
    (h : lookupEntry completed p = some (fmt, raw)) :
    handleFileClose cfg completed o p =
      (let fileContents :=
        (processGeneratedFileContents fmt raw ((lookupFileContents cfg.allFiles p).getD "")).fst
       let generatedFile : FileOutput :=
        { filePath := p, fileContents := fileContents, filePurpose := cfg.purposeOf p }
       let fixed :=
        if shouldEnableRealtimeCodeFixer cfg = true ∧ 50 < lineCount fileContents then
          FixResult.pendingFix generatedFile
        else
          FixResult.resolvedNow generatedFile
       { o with fixedFilePromises := o.fixedFilePromises ++ [fixed]
                closedCallbacks := o.closedCallbacks ++ [generatedFile] }) := by
  unfold handleFileClose
  rw [h]

/-- Whether the promise appended for the closed path is an asynchronous
correction task. -/
def routedThroughFixer (cfg : Config) (completed : List CompletedEntry)
    (o : OrchestratorState) (p : String) : Bool :=
  match (handleFileClose cfg completed o p).fixedFilePromises.getLast? with
  | some (FixResult.pendingFix _) => true
  | _ => false

/-- The reconciled contents the close handler computes for a closed file. -/
def reconciledContents (cfg : Config) (fmt : FileFormat) (raw : String) (p : String) : String :=
  (processGeneratedFileContents fmt raw ((lookupFileContents cfg.allFiles p).getD "")).fst

/-- C1: a closed file is routed through the asynchronous secondary
correction pass if and only if the realtime-fixer flag is enabled and the
reconciled content exceeds 50 lines; in particular a 49-line file is
never routed, and a 51-line file is routed whenever the flag is enabled. -/
theorem realtime_fixer_eligibility (cfg : Config) (completed : List CompletedEntry)
    (o : OrchestratorState) (p : String) (fmt : FileFormat) (raw : String)
    (h : lookupEntry completed p = some (fmt, raw)) :
    (routedThroughFixer cfg completed o p = true
      ↔ (shouldEnableRealtimeCodeFixer cfg = true
          ∧ 50 < lineCount (reconciledContents cfg fmt raw p)))
    ∧ (lineCount (reconciledContents cfg fmt raw p) = 49
        → routedThroughFixer cfg completed o p = false)
    ∧ (lineCount (reconciledContents cfg fmt raw p) = 51
        → shouldEnableRealtimeCodeFixer cfg = true
        → routedThroughFixer cfg completed o p = true) := by
  by_cases hcond : shouldEnableRealtimeCodeFixer cfg = true
      ∧ 50 < lineCount (processGeneratedFileContents fmt raw
          ((lookupFileContents cfg.allFiles p).getD "")).1
  · have hr : routedThroughFixer cfg completed o p = true := by
      unfold routedThroughFixer
      rw [handleFileClose_found cfg completed o p fmt raw h]
      simp only []
      rw [if_pos hcond]
      simp [List.getLast?_concat]
    refine ⟨iff_of_true hr hcond, ?_, fun _ _ => hr⟩
    intro h49
    have h49x : lineCount (processGeneratedFileContents fmt raw
        ((lookupFileContents cfg.allFiles p).getD "")).1 = 49 := h49
    have h50 := hcond.2
    omega
  · have hr : routedThroughFixer cfg completed o p = false := by
      unfold routedThroughFixer
      rw [handleFileClose_found cfg completed o p fmt raw h]
      simp only []
      rw [if_neg hcond]
      simp [List.getLast?_concat]
    refine ⟨iff_of_false (by rw [hr]; simp) hcond, fun _ => hr, ?_⟩
    intro h51 hen
    have h51x : lineCount (processGeneratedFileContents fmt raw
        ((lookupFileContents cfg.allFiles p).getD "")).1 = 51 := h51
    exact absurd ⟨hen, by omega⟩ hcond

def raw51 : String := String.mk ((List.replicate 50 ['x', '\n']).flatten ++ ['x'])

def completedEx : List CompletedEntry :=
  [{ path := "a.py", format := FileFormat.fullContent, rawContent := raw51 }]

theorem realtime_fixer_eligibility_witness :
    routedThroughFixer cfgEx completedEx initOrchestrator "a.py" = true :=
  (realtime_fixer_eligibility cfgEx completedEx initOrchestrator "a.py"
      FileFormat.fullContent raw51 (by decide)).2.2 (by decide) (by decide)

/-- C8: when the close callback fires for a path absent from the
completed-files map, the operation logs an error and returns without
appending any promise and without invoking the file-closed callback. -/
theorem close_of_missing_completed_file_is_noop (cfg : Config)
    (completed : List CompletedEntry) (o : OrchestratorState) (p : String)
    (h : lookupEntry completed p = none) :
    (handleFileClose cfg completed o p).fixedFilePromises = o.fixedFilePromises
    ∧ (handleFileClose cfg completed o p).closedCallbacks = o.closedCallbacks
    ∧ (handleFileClose cfg completed o p).errorLogs
        = o.errorLogs ++ [completedFileNotFoundMsg p] := by
  unfold handleFileClose
  rw [h]
  exact ⟨rfl, rfl, rfl⟩

theorem close_of_missing_completed_file_is_noop_witness :
    (handleFileClose cfgEx [] initOrchestrator "missing.py").fixedFilePromises
        = initOrchestrator.fixedFilePromises
    ∧ (handleFileClose cfgEx [] initOrchestrator "missing.py").closedCallbacks
        = initOrchestrator.closedCallbacks
    ∧ (handleFileClose cfgEx [] initOrchestrator "missing.py").errorLogs
        = initOrchestrator.errorLogs ++ [completedFileNotFoundMsg "missing.py"] :=
  close_of_missing_completed_file_is_noop cfgEx [] initOrchestrator "missing.py" rfl

theorem lookupEntry_setEntry_self (l : List CompletedEntry) (p : String)
    (f : FileFormat) (r : String) :
    lookupEntry (setEntry l p f r) p = some (f, r) := by
  induction l with
  | nil => simp [setEntry, lookupEntry]
  | cons e rest ih =>
    by_cases he : e.path = p
    · simp [setEntry, he, lookupEntry]
    · simp [setEntry, he, lookupEntry, ih]

/-- The paths of the collected result promises, in list order. -/
def promisePaths (o : OrchestratorState) : List String :=
  o.fixedFilePromises.map (fun r => (fixResultFile r).filePath)

theorem promisePaths_handleFileClose_found (cfg : Config) (completed : List CompletedEntry)
    (o : OrchestratorState) (p : String) (fmt : FileFormat) (raw : String)
    (h : lookupEntry completed p = some (fmt, raw)) :
    promisePaths (handleFileClose cfg completed o p) = promisePaths o ++ [p] := by
  unfold promisePaths
  rw [handleFileClose_found cfg completed o p fmt raw h]
  simp only []
  by_cases hc : shouldEnableRealtimeCodeFixer cfg = true
      ∧ 50 < lineCount (processGeneratedFileContents fmt raw
          ((lookupFileContents cfg.allFiles p).getD "")).1
  · rw [if_pos hc]
    simp [fixResultFile]
  · rw [if_neg hc]
    simp [fixResultFile]

theorem stepLine_inv (cfg : Config) (ps : PipelineState) (line : String)
    (h : promisePaths ps.orch = closePaths ps.events) :
    promisePaths (stepLine cfg ps line).orch = closePaths (stepLine cfg ps line).events := by
  unfold stepLine
  cases hcb : ps.parser.inCommandBlock
  case true =>
    cases hcl : classifyLine line <;>
      simp [processLine, hcb, hcl, closePaths, List.filterMap_append, handleEvent,
        apply_ite Prod.snd, apply_ite Prod.fst, h]
  case false =>
    cases hcl : classifyLine line
    case openMarker p fmt =>
      simpa [processLine, hcb, hcl, closePaths, List.filterMap_append, handleEvent] using h
    case closeMarker =>
      cases hp : ps.parser.pending
      case none =>
        simpa [processLine, hcb, hcl, hp, closePaths, handleEvent] using h
      case some pf =>
        have hlook := lookupEntry_setEntry_self ps.parser.completedFiles pf.path
          pf.format pf.rawContent
        simp only [processLine, hcb, hcl, hp, Bool.false_eq_true, if_neg, ite_false,
          List.foldl_cons, List.foldl_nil, handleEvent]
        rw [promisePaths_handleFileClose_found cfg _ ps.orch pf.path pf.format pf.rawContent hlook]
        simp [closePaths, List.filterMap_append, h]
    case cmdOpen =>
      simpa [processLine, hcb, hcl, closePaths, handleEvent] using h
    case cmdClose =>
      simpa [processLine, hcb, hcl, closePaths, handleEvent] using h
    case plain =>
      cases hp : ps.parser.pending <;>
        simpa [processLine, hcb, hcl, hp, closePaths, List.filterMap_append, handleEvent] using h

theorem feedChar_inv (cfg : Config) (ps : PipelineState) (c : Char)
    (h : promisePaths ps.orch = closePaths ps.events) :
    promisePaths (feedChar cfg ps c).orch = closePaths (feedChar cfg ps c).events := by
  unfold feedChar
  split
  · exact stepLine_inv cfg _ _ h
  · exact h

theorem foldl_chars_inv (cfg : Config) :
    ∀ (l : List Char) (ps : PipelineState),
      promisePaths ps.orch = closePaths ps.events →
      promisePaths (l.foldl (feedChar cfg) ps).orch
        = closePaths (l.foldl (feedChar cfg) ps).events
  | [], _, h => h
  | c :: rest, ps, h =>
    foldl_chars_inv cfg rest (feedChar cfg ps c) (feedChar_inv cfg ps c h)

theorem runPipeline_inv (cfg : Config) (chunks : List String) :
    promisePaths (runPipeline cfg chunks).orch
      = closePaths (runPipeline cfg chunks).events := by
  rw [runPipeline_eq_flat]
  exact foldl_chars_inv cfg _ initPipeline rfl

/-- C3: the collected result-promise list is ordered by file-close order:
its entries, projected to their file paths, are exactly the paths of the
close events in emission order, independent of any correction timing. -/
theorem promise_list_in_file_close_order (cfg : Config) (chunks : List String) :
    (runPipeline cfg chunks).orch.fixedFilePromises.map (fun r => (fixResultFile r).filePath)
      = closePaths (runPipeline cfg chunks).events :=
  runPipeline_inv cfg chunks

/-- C2: after the stream ends the promise list contains exactly one entry
per close event; each close of a file present in the completed map
appends exactly one promise, an asynchronous correction promise when the
file is eligible and an already-resolved result wrapping the generated
file otherwise. -/
theorem one_promise_per_closed_file (cfg : Config) (chunks : List String) :
    ((runPipeline cfg chunks).orch.fixedFilePromises.length
        = (closePaths (runPipeline cfg chunks).events).length)
    ∧ ∀ (completed : List CompletedEntry) (o : OrchestratorState) (p : String)
        (fmt : FileFormat) (raw : String),
        lookupEntry completed p = some (fmt, raw) →
        ∃ gf : FileOutput,
          (handleFileClose cfg completed o p).fixedFilePromises
            = o.fixedFilePromises
              ++ [if shouldEnableRealtimeCodeFixer cfg = true ∧ 50 < lineCount gf.fileContents
                  then FixResult.pendingFix gf
                  else FixResult.resolvedNow gf] := by
  constructor
  · have h := congrArg List.length (runPipeline_inv cfg chunks)
    simpa [promisePaths] using h
  · intro completed o p fmt raw h
    refine ⟨{ filePath := p
              fileContents := (processGeneratedFileContents fmt raw
                ((lookupFileContents cfg.allFiles p).getD "")).1
              filePurpose := cfg.purposeOf p }, ?_⟩
    rw [handleFileClose_found cfg completed o p fmt raw h]

theorem one_promise_per_closed_file_witness :
    ((runPipeline cfgEx chunksA).orch.fixedFilePromises.length
        = (closePaths (runPipeline cfgEx chunksA).events).length)
    ∧ ∃ gf : FileOutput,
        (handleFileClose cfgEx completedEx initOrchestrator "a.py").fixedFilePromises
          = initOrchestrator.fixedFilePromises
            ++ [if shouldEnableRealtimeCodeFixer cfgEx = true ∧ 50 < lineCount gf.fileContents
                then FixResult.pendingFix gf
                else FixResult.resolvedNow gf] :=
  ⟨(one_promise_per_closed_file cfgEx chunksA).1,
   (one_promise_per_closed_file cfgEx chunksA).2 completedEx initOrchestrator "a.py"
     FileFormat.fullContent raw51 (by decide)⟩

theorem findBlockIdx_eq_none (blk : List (List Char)) :
    ∀ ls : List (List Char),
      (∀ i, i ≤ ls.length → blockIsPrefixOf blk (ls.drop i) = false) →
      findBlockIdx blk ls = none
  | [], h => by
    have h0 := h 0 (by simp)
    simp only [List.drop_nil] at h0
    simp [findBlockIdx, h0]
  | l :: rest, h => by
    have h0 := h 0 (by simp)
    simp only [List.drop_zero] at h0
    have ih := findBlockIdx_eq_none blk rest (fun i hi => by
      have hx := h (i + 1) (by simpa using Nat.succ_le_succ hi)
      simpa [List.drop_succ_cons] using hx)
    simp [findBlockIdx, h0, ih]

/-- C7: a unified-diff file whose single hunk has a block of removed
lines that does not occur verbatim anywhere in the prior content fails
reconciliation with a PatchApplicationError, and the prior content is
kept unchanged in the result handed back to the caller. -/
theorem patch_failure_keeps_prior_content (raw prior : String) (hk : Hunk)
    (hparse : parseHunks (splitOnChar '\n' raw.data) = [hk])
    (hnowhere : ∀ i, i ≤ (splitOnChar '\n' prior.data).length →
        blockIsPrefixOf hk.minus ((splitOnChar '\n' prior.data).drop i) = false) :
    applyUnifiedDiff raw prior = Except.error { message := patchErrorMsg }
    ∧ (processGeneratedFileContents FileFormat.unifiedDiff raw prior).fst = prior
    ∧ (processGeneratedFileContents FileFormat.unifiedDiff raw prior).snd
        = some { message := patchErrorMsg } := by
  have hfind := findBlockIdx_eq_none hk.minus _ hnowhere
  have happly : applyUnifiedDiff raw prior = Except.error { message := patchErrorMsg } := by
    unfold applyUnifiedDiff
    rw [hparse]
    simp [applyHunks, applyHunk, hfind]
  refine ⟨happly, ?_, ?_⟩ <;> simp [processGeneratedFileContents, happly]

def rawDiffEx : String := "@@ -1 +1 @@\n-xxx\n+yyy"

def priorEx : String := "aaa\nbbb"

def hunkEx : Hunk := { minus := [['x', 'x', 'x']], plus := [['y', 'y', 'y']] }

theorem patch_failure_keeps_prior_content_witness :
    applyUnifiedDiff rawDiffEx priorEx = Except.error { message := patchErrorMsg }
    ∧ (processGeneratedFileContents FileFormat.unifiedDiff rawDiffEx priorEx).fst = priorEx
    ∧ (processGeneratedFileContents FileFormat.unifiedDiff rawDiffEx priorEx).snd
        = some { message := patchErrorMsg } :=
  patch_failure_keeps_prior_content rawDiffEx priorEx hunkEx (by decide) (by decide)

/-- The characters allowed in a sanitized droplet name: lowercase ASCII
letters, digits and the hyphen. -/
def isAllowedChar (c : Char) : Bool :=
  if ('a' ≤ c ∧ c ≤ 'z') ∨ ('0' ≤ c ∧ c ≤ '9') ∨ c = '-' then true else false

/-- Replace every maximal run of hyphens with a single hyphen. -/
def collapseHyphens : List Char → List Char
  | [] => []
  | [c] => [c]
  | a :: b :: rest =>
    if a = '-' ∧ b = '-' then collapseHyphens (b :: rest)
    else a :: collapseHyphens (b :: rest)

/-- Remove one leading hyphen, if present. -/
def trimLeadHyphen : List Char → List Char
  | [] => []
  | c :: rest => if c = '-' then rest else c :: rest

/-- Remove one trailing hyphen, if present. -/
def trimTrailHyphen (l : List Char) : List Char :=
  match l.reverse with
  | [] => l
  | c :: rest => if c = '-' then rest.reverse else l

/-- The sanitization pipeline of the safeName computation in
buildDefaultUserData, before the empty-string fallback: lower-case,
replace every disallowed character by a hyphen, collapse hyphen runs,
then strip one leading and one trailing hyphen. -/
def sanitizeCore (appName : String) : List Char :=
  trimTrailHyphen (trimLeadHyphen (collapseHyphens
    ((appName.data.map Char.toLower).map (fun c => if isAllowedChar c then c else '-'))))

/-- The safeName computation of buildDefaultUserData, with the fallback
name used when sanitization yields the empty string. -/
def sanitizeAppName (appName : String) : String :=
  if sanitizeCore appName = [] then "vibe-app" else String.mk (sanitizeCore appName)

/-- Two adjacent characters are not both hyphens. -/
def HyphenApart (a b : Char) : Prop := ¬(a = '-' ∧ b = '-')

instance instDecidableHyphenApart : ∀ a b : Char, Decidable (HyphenApart a b) :=
  fun a b => (inferInstance : Decidable ¬(a = '-' ∧ b = '-'))

theorem allowed_after_replace (l : List Char) :
    ∀ c ∈ l.map (fun c => if isAllowedChar c then c else '-'), isAllowedChar c = true := by
  intro c hc
  rw [List.mem_map] at hc
  obtain ⟨d, _, rfl⟩ := hc
  by_cases hd : isAllowedChar d = true
  · simp [hd]
  · simp only [Bool.not_eq_true] at hd
    simp [hd]
    decide

theorem mem_collapseHyphens : ∀ (l : List Char) (c : Char), c ∈ collapseHyphens l → c ∈ l
  | [], c, h => by simp [collapseHyphens] at h
  | [a], c, h => by simpa [collapseHyphens] using h
  | a :: b :: rest, c, h => by
    by_cases hab : a = '-' ∧ b = '-'
    · rw [collapseHyphens, if_pos hab] at h
      exact List.mem_cons_of_mem a (mem_collapseHyphens (b :: rest) c h)
    · rw [collapseHyphens, if_neg hab] at h
      rcases List.mem_cons.mp h with hca | hcr
      · exact hca ▸ List.mem_cons_self a (b :: rest)
      · exact List.mem_cons_of_mem a (mem_collapseHyphens (b :: rest) c hcr)

theorem head?_collapseHyphens : ∀ l : List Char, (collapseHyphens l).head? = l.head?
  | [] => rfl
  | [_] => rfl
  | a :: b :: rest => by
    by_cases hab : a = '-' ∧ b = '-'
    · rw [collapseHyphens, if_pos hab, head?_collapseHyphens (b :: rest)]
      simp [hab.1, hab.2]
    · rw [collapseHyphens, if_neg hab]
      rfl

theorem chain'_collapseHyphens : ∀ l : List Char, List.Chain' HyphenApart (collapseHyphens l)
  | [] => by simp [collapseHyphens]
  | [c] => by simp [collapseHyphens]
  | a :: b :: rest => by
    have ih := chain'_collapseHyphens (b :: rest)
    by_cases hab : a = '-' ∧ b = '-'
    · rw [collapseHyphens, if_pos hab]
      exact ih
    · rw [collapseHyphens, if_neg hab]
      rw [List.chain'_cons']
      refine ⟨?_, ih⟩
      intro y hy
      rw [head?_collapseHyphens (b :: rest)] at hy
      simp only [List.head?_cons, Option.mem_def, Option.some.injEq] at hy
      subst hy
      exact hab

theorem mem_trimLeadHyphen (l : List Char) (c : Char) (h : c ∈ trimLeadHyphen l) : c ∈ l := by
  cases l with
  | nil => simp [trimLeadHyphen] at h
  | cons a rest =>
    by_cases ha : a = '-'
    · rw [trimLeadHyphen, if_pos ha] at h
      exact List.mem_cons_of_mem a h
    · rwa [trimLeadHyphen, if_neg ha] at h

theorem chain'_trimLeadHyphen (l : List Char) (h : List.Chain' HyphenApart l) :
    List.Chain' HyphenApart (trimLeadHyphen l) := by
  cases l with
  | nil => simp [trimLeadHyphen]
  | cons a rest =>
    by_cases ha : a = '-'
    · rw [trimLeadHyphen, if_pos ha]
      exact h.tail
    · rwa [trimLeadHyphen, if_neg ha]

theorem head?_trimLeadHyphen_ne (l : List Char) (h : List.Chain' HyphenApart l) :
    (trimLeadHyphen l).head? ≠ some '-' := by
  cases l with
  | nil => simp [trimLeadHyphen]
  | cons a rest =>
    by_cases ha : a = '-'
    · rw [trimLeadHyphen, if_pos ha]
      rw [List.chain'_cons'] at h
      intro hcontra
      cases rest with
      | nil => simp at hcontra
      | cons b t =>
        simp only [List.head?_cons, Option.some.injEq] at hcontra
        have hb := h.1 b (by simp)
        exact hb ⟨ha, hcontra⟩
    · rw [trimLeadHyphen, if_neg ha]
      simpa using ha

theorem trimTrailHyphen_eq (l : List Char) :
    trimTrailHyphen l = l ∨ trimTrailHyphen l = l.dropLast := by
  cases hr : l.reverse with
  | nil => left; simp [trimTrailHyphen, hr]
  | cons c rest =>
    by_cases hc : c = '-'
    · right
      have hl : l = rest.reverse ++ [c] := by
        have h2 := congrArg List.reverse hr
        simpa [List.reverse_cons] using h2
      rw [trimTrailHyphen, hr]
      show (if c = '-' then rest.reverse else l) = l.dropLast
      rw [if_pos hc, hl, List.dropLast_concat]
    · left
      rw [trimTrailHyphen, hr]
      simp [hc]

theorem isPrefix_dropLast (l : List Char) : l.dropLast <+: l := by
  cases hl : l with
  | nil => simp
  | cons a rest =>
    refine ⟨[(a :: rest).getLast (by simp)], ?_⟩
    exact List.dropLast_append_getLast (by simp)

theorem chain'_trimTrailHyphen (l : List Char) (h : List.Chain' HyphenApart l) :
    List.Chain' HyphenApart (trimTrailHyphen l) := by
  rcases trimTrailHyphen_eq l with he | he <;> rw [he]
  · exact h
  · exact h.prefix (isPrefix_dropLast l)

theorem mem_trimTrailHyphen (l : List Char) (c : Char) (h : c ∈ trimTrailHyphen l) : c ∈ l := by
  rcases trimTrailHyphen_eq l with he | he
  · rwa [he] at h
  · rw [he] at h
    exact (List.dropLast_sublist l).mem h

theorem head?_dropLast_ne (l : List Char) (h : l.head? ≠ some '-') :
    l.dropLast.head? ≠ some '-' := by
  cases l with
  | nil => simp
  | cons a rest =>
    cases rest with
    | nil => simp
    | cons b t =>
      simp only [List.head?_cons] at h
      simpa [List.dropLast] using h

theorem head?_trimTrailHyphen_ne (l : List Char) (h : l.head? ≠ some '-') :
    (trimTrailHyphen l).head? ≠ some '-' := by
  rcases trimTrailHyphen_eq l with he | he <;> rw [he]
  · exact h
  · exact head?_dropLast_ne l h

theorem getLast?_trimTrailHyphen_ne (l : List Char) (h : List.Chain' HyphenApart l) :
    (trimTrailHyphen l).getLast? ≠ some '-' := by
  cases hr : l.reverse with
  | nil =>
    have hl : l = [] := by
      have h2 := congrArg List.reverse hr
      simpa using h2
    subst hl
    simp [trimTrailHyphen]
  | cons c rest =>
    have hrev : List.Chain' HyphenApart l.reverse := by
      rw [List.chain'_reverse]
      exact h.imp (fun a b hab hcontra => hab ⟨hcontra.2, hcontra.1⟩)
    rw [hr] at hrev
    by_cases hc : c = '-'
    · rw [trimTrailHyphen, hr]
      show (if c = '-' then rest.reverse else l).getLast? ≠ some '-'
      rw [if_pos hc]
      rw [List.getLast?_reverse]
      rw [List.chain'_cons'] at hrev
      intro hcontra
      cases rest with
      | nil => simp at hcontra
      | cons b t =>
        simp only [List.head?_cons, Option.some.injEq] at hcontra
        exact hrev.1 b (by simp) ⟨hc, hcontra⟩
    · rw [trimTrailHyphen, hr]
      show (if c = '-' then rest.reverse else l).getLast? ≠ some '-'
      rw [if_neg hc]
      have hgl : l.getLast? = some c := by
        rw [← List.head?_reverse, hr]
        rfl
      rw [hgl]
      simpa using hc

/-- C10: for every appName, the sanitized name buildDefaultUserData embeds
in the generated page is non-empty and consists only of lowercase
letters, digits and hyphens, with no consecutive hyphens and no leading
or trailing hyphen; when sanitization yields the empty string the name
vibe-app is used instead. -/
theorem sanitized_name_invariants (appName : String) :
    sanitizeAppName appName ≠ ""
    ∧ (∀ c ∈ (sanitizeAppName appName).data, isAllowedChar c = true)
    ∧ List.Chain' HyphenApart (sanitizeAppName appName).data
    ∧ (sanitizeAppName appName).data.head? ≠ some '-'
    ∧ (sanitizeAppName appName).data.getLast? ≠ some '-'
    ∧ (sanitizeCore appName = [] → sanitizeAppName appName = "vibe-app") := by
  by_cases h0 : sanitizeCore appName = []
  · have hs : sanitizeAppName appName = "vibe-app" := by
      rw [sanitizeAppName, if_pos h0]
    rw [hs]
    have hvchain : List.Chain' HyphenApart "vibe-app".data := by
      show List.Chain' HyphenApart ['v', 'i', 'b', 'e', '-', 'a', 'p', 'p']
      repeat
        refine List.chain'_cons.mpr ⟨by decide, ?_⟩
      exact List.chain'_singleton _
    exact ⟨by decide, by decide, hvchain, by decide, by decide, fun _ => rfl⟩
  · have hs : sanitizeAppName appName = String.mk (sanitizeCore appName) := by
      rw [sanitizeAppName, if_neg h0]
    have hdata : (sanitizeAppName appName).data = sanitizeCore appName := by
      rw [hs]
    have hchainL := chain'_collapseHyphens
      ((appName.data.map Char.toLower).map (fun c => if isAllowedChar c then c else '-'))
    have hchainM := chain'_trimLeadHyphen _ hchainL
    have hchainT : List.Chain' HyphenApart (sanitizeCore appName) :=
      chain'_trimTrailHyphen _ hchainM
    have hmem : ∀ c ∈ sanitizeCore appName, isAllowedChar c = true := fun c hc =>
      allowed_after_replace (appName.data.map Char.toLower) c
        (mem_collapseHyphens _ c (mem_trimLeadHyphen _ c (mem_trimTrailHyphen _ c hc)))
    have hhead : (sanitizeCore appName).head? ≠ some '-' :=
      head?_trimTrailHyphen_ne _ (head?_trimLeadHyphen_ne _ hchainL)
    have hlast : (sanitizeCore appName).getLast? ≠ some '-' :=
      getLast?_trimTrailHyphen_ne _ hchainM
    have hne : sanitizeAppName appName ≠ "" := by
      rw [hs]
      intro hcontra
      apply h0
      have h2 := congrArg String.data hcontra
      simpa using h2
    refine ⟨hne, ?_, ?_, ?_, ?_, fun hc => absurd hc h0⟩
    · rw [hdata]
      exact hmem
    · rw [hdata]
      exact hchainT
    · rw [hdata]
      exact hhead
    · rw [hdata]
      exact hlast

theorem sanitized_name_invariants_witness :
    sanitizeAppName "  My App!!" ≠ ""
    ∧ (∀ c ∈ (sanitizeAppName "  My App!!").data, isAllowedChar c = true)
    ∧ List.Chain' HyphenApart (sanitizeAppName "  My App!!").data
    ∧ (sanitizeAppName "  My App!!").data.head? ≠ some '-'
    ∧ (sanitizeAppName "  My App!!").data.getLast? ≠ some '-'
    ∧ (sanitizeCore "  My App!!" = [] → sanitizeAppName "  My App!!" = "vibe-app") :=
  sanitized_name_invariants "  My App!!"
